import Mathlib

/-!
Verification development for the mqtt-ranger repository.

The file shallowly embeds the core of the program:
* the Topic Activity Store (`src/app.rs`: `AppState`, `next`, `previous`;
  `src/mqtt.rs`: `push_message_into_topic`),
* the Event Producer loop (`src/mqtt.rs`: `handle_incoming_messages`),
  together with the `String::from_utf8_lossy` payload decoding and the
  timestamp construction it performs per publish,
* the configuration form (`src/app.rs`: `ConfigFormState`;
  `src/tui/config_form.rs`: `ConfigFormScreen`, `process_pending_conn`,
  `on_enter_pressed`) and Rust's `str::parse::<u16>` port validation.

Machine integers (`usize` indices, `u16` ports) are modelled as `Nat`;
the Rust code never subtracts below zero on the paths embedded here, and
the `u16` range check is explicit in `parse_u16`.
-/

/-- One received message, `src/app.rs` `MessageActivity`: the payload text and
an already formatted timestamp string. -/
structure MessageActivity where
  payload : String
  timestamp : String
deriving DecidableEq, Repr

/-- An MQTT topic with its ordered message log, `src/app.rs` `TopicActivity`. -/
structure TopicActivity where
  name : String
  messages : List MessageActivity
deriving DecidableEq, Repr

/-- The Topic Activity Store, `src/app.rs` `AppState` (the same shape is
referred to as `TopicActivityMenuState` by `src/mqtt.rs` and
`src/tui/topic_activity.rs` in this snapshot): the ordered topic list and the
selection cursor. -/
structure AppState where
  topics : List TopicActivity
  selected_index : Nat
deriving DecidableEq, Repr

/-- `AppState::new` from `src/app.rs`. -/
def AppState.new : AppState :=
  { topics := [], selected_index := 0 }

/-- The topic-list mutation of `push_message_into_topic` (`src/mqtt.rs`
lines 119-144): `topics.iter_mut().find(|t| t.name == topic_name)` finds the
first topic with the given name and the message is appended to its log;
otherwise a new topic with a one-element log is pushed at the end.
The caller formats the timestamp string via the `time` crate before storage
(out of scope, treated as given in `MessageActivity.timestamp`). -/
def push_message_into_topic : List TopicActivity → String → MessageActivity → List TopicActivity
  | [], topic_name, m => [{ name := topic_name, messages := [m] }]
  | t :: ts, topic_name, m =>
    if t.name = topic_name then
      { t with messages := t.messages ++ [m] } :: ts
    else
      t :: push_message_into_topic ts topic_name m

/-- `push_message_into_topic` acting on the whole store: it only touches the
`topics` field of the locked state (`menu_lock.topics`), never the cursor. -/
def AppState.upsert (s : AppState) (topic_name : String) (m : MessageActivity) : AppState :=
  { s with topics := push_message_into_topic s.topics topic_name m }

/-- `AppState::next` from `src/app.rs`: advance the cursor modulo the topic
count, no-op on an empty list. -/
def AppState.next (s : AppState) : AppState :=
  if s.topics.isEmpty then s
  else { s with selected_index := (s.selected_index + 1) % s.topics.length }

/-- `AppState::previous` from `src/app.rs`: retreat the cursor with
wrap-around from `0` to `len - 1`, no-op on an empty list. -/
def AppState.previous (s : AppState) : AppState :=
  if s.topics.isEmpty then s
  else if s.selected_index = 0 then { s with selected_index := s.topics.length - 1 }
  else { s with selected_index := s.selected_index - 1 }

/-- The operations that touch the store after startup: `upsert` from the
Event Consumer, `next` / `previous` from the Interactive Loop. -/
inductive StoreOp where
  | upsert (topic_name : String) (m : MessageActivity)
  | next
  | previous
deriving DecidableEq, Repr

def applyOp (s : AppState) : StoreOp → AppState
  | .upsert n m => s.upsert n m
  | .next => s.next
  | .previous => s.previous

def applyOps (s : AppState) (ops : List StoreOp) : AppState :=
  ops.foldl applyOp s

/-- The selection invariant of the store: the cursor is in range whenever the
topic list is non-empty, and equals `0` when it is empty. -/
def storeInv (s : AppState) : Prop :=
  (s.topics = [] → s.selected_index = 0) ∧
  (s.topics ≠ [] → s.selected_index < s.topics.length)

instance (s : AppState) : Decidable (storeInv s) := by
  unfold storeInv; infer_instance

-- Basic facts about the store operations.

theorem push_length_le (ts : List TopicActivity) (n : String) (m : MessageActivity) :
    ts.length ≤ (push_message_into_topic ts n m).length := by
  induction ts with
  | nil => simp [push_message_into_topic]
  | cons t ts ih =>
    by_cases h : t.name = n <;> simp [push_message_into_topic, h]
    exact ih

theorem push_ne_nil (ts : List TopicActivity) (n : String) (m : MessageActivity) :
    push_message_into_topic ts n m ≠ [] := by
  cases ts with
  | nil => simp [push_message_into_topic]
  | cons t ts =>
    by_cases h : t.name = n <;> simp [push_message_into_topic, h]

theorem next_topics (s : AppState) : (AppState.next s).topics = s.topics := by
  unfold AppState.next; split <;> rfl

theorem previous_topics (s : AppState) : (AppState.previous s).topics = s.topics := by
  unfold AppState.previous; split <;> try rfl
  split <;> rfl

theorem storeInv_next (s : AppState) (h : storeInv s) : storeInv (AppState.next s) := by
  obtain ⟨h0, hlt⟩ := h
  unfold AppState.next
  split
  · exact ⟨h0, hlt⟩
  · rename_i hne
    simp only [List.isEmpty_iff] at hne
    constructor
    · intro hc; exact absurd hc hne
    · intro _
      exact Nat.mod_lt _ (List.length_pos_of_ne_nil hne)

theorem storeInv_previous (s : AppState) (h : storeInv s) : storeInv (AppState.previous s) := by
  obtain ⟨h0, hlt⟩ := h
  unfold AppState.previous
  split
  · exact ⟨h0, hlt⟩
  · rename_i hne
    simp only [List.isEmpty_iff] at hne
    have hpos : 0 < s.topics.length := List.length_pos_of_ne_nil hne
    split
    · constructor
      · intro hc; exact absurd hc hne
      · intro _; exact Nat.sub_lt hpos Nat.one_pos
    · constructor
      · intro hc; exact absurd hc hne
      · intro _
        exact lt_of_le_of_lt (Nat.sub_le _ _) (hlt hne)

theorem storeInv_upsert (s : AppState) (n : String) (m : MessageActivity)
    (h : storeInv s) : storeInv (s.upsert n m) := by
  obtain ⟨h0, hlt⟩ := h
  constructor
  · intro hc
    exact absurd hc (push_ne_nil s.topics n m)
  · intro _
    show s.selected_index < (push_message_into_topic s.topics n m).length
    by_cases hnil : s.topics = []
    · rw [hnil, h0 hnil]
      simp [push_message_into_topic]
    · exact lt_of_lt_of_le (hlt hnil) (push_length_le s.topics n m)

theorem storeInv_applyOp (s : AppState) (op : StoreOp) (h : storeInv s) :
    storeInv (applyOp s op) := by
  cases op with
  | upsert n m => exact storeInv_upsert s n m h
  | next => exact storeInv_next s h
  | previous => exact storeInv_previous s h

theorem storeInv_applyOps (ops : List StoreOp) (s : AppState) (h : storeInv s) :
    storeInv (applyOps s ops) := by
  induction ops generalizing s with
  | nil => exact h
  | cons op ops ih => exact ih (applyOp s op) (storeInv_applyOp s op h)

/-- C2: starting from the initial store (empty topics, cursor `0`), after any
interleaving of `upsert` (`push_message_into_topic`), `next` and `previous`,
the cursor is a valid index into `topics` whenever `topics` is non-empty and
equals `0` when `topics` is empty: no out-of-bounds selection is observable. -/
theorem C2_selected_index_invariant (ops : List StoreOp) :
    storeInv (applyOps AppState.new ops) :=
  storeInv_applyOps ops AppState.new (by constructor <;> simp [AppState.new])

/-- Witness for C2 at a concrete operation sequence. -/
theorem C2_selected_index_invariant_witness :
    storeInv (applyOps AppState.new
      [.upsert "a" ⟨"1", "t"⟩, .next, .upsert "b" ⟨"2", "t"⟩, .previous, .previous]) :=
  C2_selected_index_invariant
    [.upsert "a" ⟨"1", "t"⟩, .next, .upsert "b" ⟨"2", "t"⟩, .previous, .previous]

-- Declarative vocabulary for the fold specification of the store
-- (these definitions follow the spec's words; `push_message_into_topic`
-- above is the definition taken from the source, and C1 compares the two).

/-- One step of first-seen deduplication: keep the accumulator if the name
was already seen, otherwise record it at the end. -/
def firstSeenStep (acc : List String) (x : String) : List String :=
  if x ∈ acc then acc else acc ++ [x]

/-- The distinct elements of a list in first-seen order. -/
def firstSeen (l : List String) : List String :=
  l.foldl firstSeenStep []

/-- The sub-sequence of pushed messages whose topic equals `n`, in push
order; events are (topic name, message) pairs. -/
def msgsFor (n : String) (evs : List (String × MessageActivity)) : List MessageActivity :=
  (evs.filter (fun e => e.1 == n)).map Prod.snd

theorem mem_foldl_firstSeenStep (a : String) (l acc : List String) :
    a ∈ l.foldl firstSeenStep acc ↔ a ∈ acc ∨ a ∈ l := by
  induction l generalizing acc with
  | nil => simp
  | cons x xs ih =>
    rw [List.foldl_cons, ih]
    unfold firstSeenStep
    by_cases hx : x ∈ acc
    · rw [if_pos hx]
      by_cases hax : a = x
      · subst hax; simp [hx]
      · simp [hax]
    · rw [if_neg hx]
      simp [or_assoc]

theorem mem_firstSeen (a : String) (l : List String) : a ∈ firstSeen l ↔ a ∈ l := by
  unfold firstSeen
  rw [mem_foldl_firstSeenStep]
  simp

theorem nodup_foldl_firstSeenStep (l acc : List String) (h : acc.Nodup) :
    (l.foldl firstSeenStep acc).Nodup := by
  induction l generalizing acc with
  | nil => exact h
  | cons x xs ih =>
    rw [List.foldl_cons]
    apply ih
    unfold firstSeenStep
    by_cases hx : x ∈ acc
    · rw [if_pos hx]; exact h
    · rw [if_neg hx]
      simp [List.nodup_append, h, hx]

theorem nodup_firstSeen (l : List String) : (firstSeen l).Nodup :=
  nodup_foldl_firstSeenStep l [] List.nodup_nil

theorem firstSeen_append_singleton (x : String) (l : List String) :
    firstSeen (l ++ [x]) =
      if x ∈ l then firstSeen l else firstSeen l ++ [x] := by
  have h1 : firstSeen (l ++ [x]) = firstSeenStep (firstSeen l) x := by
    unfold firstSeen
    rw [List.foldl_append]
    rfl
  rw [h1]
  unfold firstSeenStep
  by_cases hx : x ∈ l
  · rw [if_pos ((mem_firstSeen x l).mpr hx), if_pos hx]
  · rw [if_neg (fun hc => hx ((mem_firstSeen x l).mp hc)), if_neg hx]

theorem msgsFor_append_singleton (n t : String) (m : MessageActivity)
    (evs : List (String × MessageActivity)) :
    msgsFor n (evs ++ [(t, m)]) =
      msgsFor n evs ++ if t = n then [m] else [] := by
  unfold msgsFor
  rw [List.filter_append, List.map_append]
  congr 1
  by_cases h : t = n <;> simp [List.filter_cons, h]

theorem msgsFor_of_not_mem (n : String) (evs : List (String × MessageActivity))
    (h : n ∉ evs.map Prod.fst) : msgsFor n evs = [] := by
  unfold msgsFor
  have hf : List.filter (fun e => e.1 == n) evs = [] := by
    rw [List.filter_eq_nil_iff]
    intro e he
    simp only [beq_iff_eq]
    intro hc
    exact h (List.mem_map.mpr ⟨e, he, hc⟩)
  rw [hf]
  rfl

-- How `push_message_into_topic` transforms the topic-name sequence and the
-- per-topic message logs.

theorem push_map_name (ts : List TopicActivity) (n : String) (m : MessageActivity) :
    (push_message_into_topic ts n m).map TopicActivity.name =
      if n ∈ ts.map TopicActivity.name then ts.map TopicActivity.name
      else ts.map TopicActivity.name ++ [n] := by
  induction ts with
  | nil => simp [push_message_into_topic]
  | cons t ts ih =>
    by_cases h : t.name = n
    · simp [push_message_into_topic, h]
    · simp only [push_message_into_topic, if_neg h, List.map_cons, ih]
      have hne : ¬ n = t.name := fun hc => h hc.symm
      by_cases hmem : n ∈ ts.map TopicActivity.name
      · simp [hmem, hne]
      · simp [hmem, hne]

theorem push_messages (ts : List TopicActivity) (n : String) (m : MessageActivity)
    (evs : List (String × MessageActivity))
    (hnd : (ts.map TopicActivity.name).Nodup)
    (hmsg : ∀ t ∈ ts, t.messages = msgsFor t.name evs)
    (hfresh : n ∉ ts.map TopicActivity.name → msgsFor n evs = []) :
    ∀ t' ∈ push_message_into_topic ts n m,
      t'.messages = msgsFor t'.name (evs ++ [(n, m)]) := by
  induction ts with
  | nil =>
    intro t' ht'
    simp only [push_message_into_topic, List.mem_singleton] at ht'
    subst ht'
    simp only
    rw [msgsFor_append_singleton, hfresh (by simp)]
    simp
  | cons t ts ih =>
    intro t' ht'
    by_cases h : t.name = n
    · rw [push_message_into_topic, if_pos h] at ht'
      rcases List.mem_cons.mp ht' with h1 | h1
      · subst h1
        simp only
        rw [msgsFor_append_singleton, hmsg t (by simp), h]
        simp
      · have hnames := List.nodup_cons.mp hnd
        have hne : t'.name ≠ n := by
          intro hc
          exact hnames.1 (h ▸ hc ▸ List.mem_map.mpr ⟨t', h1, rfl⟩)
        rw [msgsFor_append_singleton, if_neg (fun hc => hne hc.symm)]
        rw [hmsg t' (List.mem_cons_of_mem t h1)]
        simp
    · rw [push_message_into_topic, if_neg h] at ht'
      rcases List.mem_cons.mp ht' with h1 | h1
      · subst h1
        rw [msgsFor_append_singleton, if_neg (fun hc => h hc.symm)]
        rw [hmsg t' (by simp)]
        simp
      · exact ih (List.nodup_cons.mp hnd).2
          (fun u hu => hmsg u (List.mem_cons_of_mem t hu))
          (fun hnm => hfresh (by simp only [List.map_cons, List.mem_cons]
                                 exact fun hc => hnm (hc.resolve_left (fun hc' => h hc'.symm))))
          t' h1

/-- The store built by folding `upsert` over a sequence of events, starting
from the initial empty store (the Event Consumer's accumulated state). -/
def applyEvents (evs : List (String × MessageActivity)) : AppState :=
  evs.foldl (fun s e => s.upsert e.1 e.2) AppState.new

/-- The fold invariant tying a store's topic list to the event history that
produced it. -/
def Represents (hist : List (String × MessageActivity)) (s : AppState) : Prop :=
  s.topics.map TopicActivity.name = firstSeen (hist.map Prod.fst) ∧
  ∀ t ∈ s.topics, t.messages = msgsFor t.name hist

theorem represents_step (hist : List (String × MessageActivity)) (s : AppState)
    (e : String × MessageActivity) (h : Represents hist s) :
    Represents (hist ++ [e]) (s.upsert e.1 e.2) := by
  obtain ⟨hname, hmsg⟩ := h
  have hnd : (s.topics.map TopicActivity.name).Nodup := by
    rw [hname]; exact nodup_firstSeen _
  constructor
  · show (push_message_into_topic s.topics e.1 e.2).map TopicActivity.name = _
    rw [push_map_name, List.map_append]
    simp only [List.map_cons, List.map_nil]
    rw [firstSeen_append_singleton]
    have hmem : e.1 ∈ s.topics.map TopicActivity.name ↔ e.1 ∈ hist.map Prod.fst := by
      rw [hname, mem_firstSeen]
    by_cases hm : e.1 ∈ hist.map Prod.fst
    · rw [if_pos (hmem.mpr hm), if_pos hm, hname]
    · rw [if_neg (fun hc => hm (hmem.mp hc)), if_neg hm, hname]
  · exact push_messages s.topics e.1 e.2 hist hnd hmsg
      (fun hn => msgsFor_of_not_mem e.1 hist (fun hc => hn (by
        rw [hname, mem_firstSeen]; exact hc)))

theorem represents_foldl (evs hist : List (String × MessageActivity)) (s : AppState)
    (h : Represents hist s) :
    Represents (hist ++ evs) (evs.foldl (fun s e => s.upsert e.1 e.2) s) := by
  induction evs generalizing hist s with
  | nil => simpa using h
  | cons e evs ih =>
    rw [List.foldl_cons]
    have := ih (hist ++ [e]) (s.upsert e.1 e.2) (represents_step hist s e h)
    simpa [List.append_assoc] using this

/-- C1: for every finite sequence of `upsert` calls
(`push_message_into_topic` events) applied to the initially empty store, the
resulting topic-name sequence lists each distinct pushed topic name exactly
once in first-seen order, and each topic's message log equals the
sub-sequence of pushed messages for that name, in push order; a push for a
name not yet present appends a fresh one-element topic at the end. -/
theorem C1_upsert_fold_characterization (evs : List (String × MessageActivity)) :
    (applyEvents evs).topics.map TopicActivity.name = firstSeen (evs.map Prod.fst) ∧
    ((applyEvents evs).topics.map TopicActivity.name).Nodup ∧
    (∀ t ∈ (applyEvents evs).topics, t.messages = msgsFor t.name evs) ∧
    (∀ (ts : List TopicActivity) (n : String) (m : MessageActivity),
      n ∉ ts.map TopicActivity.name →
      push_message_into_topic ts n m = ts ++ [{ name := n, messages := [m] }]) := by
  have hrep : Represents evs (applyEvents evs) := by
    have h0 : Represents [] AppState.new := by
      constructor
      · simp [AppState.new, firstSeen]
      · intro t ht; exact absurd ht (List.not_mem_nil t)
    simpa using represents_foldl evs [] AppState.new h0
  refine ⟨hrep.1, ?_, hrep.2, ?_⟩
  · rw [hrep.1]; exact nodup_firstSeen _
  · intro ts n m hn
    induction ts with
    | nil => simp [push_message_into_topic]
    | cons t ts ih =>
      simp only [List.map_cons, List.mem_cons] at hn
      push_neg at hn
      rw [push_message_into_topic, if_neg (fun hc => hn.1 hc.symm)]
      rw [ih hn.2, List.cons_append]

/-- Witness for C1 on the spec's own example: events
`("a","1"), ("b","2"), ("a","3")` yield topics `[a:[1,3], b:[2]]`. -/
theorem C1_upsert_fold_characterization_witness :
    (applyEvents [("a", ⟨"1", "t1"⟩), ("b", ⟨"2", "t2"⟩), ("a", ⟨"3", "t3"⟩)]).topics.map
        TopicActivity.name = ["a", "b"] ∧
    (∀ t ∈ (applyEvents [("a", ⟨"1", "t1"⟩), ("b", ⟨"2", "t2"⟩),
        ("a", ⟨"3", "t3"⟩)]).topics,
      t.messages = msgsFor t.name [("a", ⟨"1", "t1"⟩), ("b", ⟨"2", "t2"⟩), ("a", ⟨"3", "t3"⟩)]) := by
  refine ⟨?_, (C1_upsert_fold_characterization
    [("a", ⟨"1", "t1"⟩), ("b", ⟨"2", "t2"⟩), ("a", ⟨"3", "t3"⟩)]).2.2.1⟩
  rw [(C1_upsert_fold_characterization
    [("a", ⟨"1", "t1"⟩), ("b", ⟨"2", "t2"⟩), ("a", ⟨"3", "t3"⟩)]).1]
  decide

-- Cyclic behaviour of the selection cursor.

theorem next_of_pos (s : AppState) (h : s.topics ≠ []) :
    AppState.next s =
      { s with selected_index := (s.selected_index + 1) % s.topics.length } := by
  unfold AppState.next
  split
  · rename_i he; simp only [List.isEmpty_iff] at he; exact absurd he h
  · rfl

theorem previous_of_pos (s : AppState) (h : s.topics ≠ [])
    (hi : s.selected_index < s.topics.length) :
    AppState.previous s =
      { s with selected_index :=
          (s.selected_index + (s.topics.length - 1)) % s.topics.length } := by
  have hpos : 0 < s.topics.length := List.length_pos_of_ne_nil h
  unfold AppState.previous
  split
  · rename_i he; simp only [List.isEmpty_iff] at he; exact absurd he h
  · split
    · rename_i h0
      rw [h0]
      rw [Nat.zero_add, Nat.mod_eq_of_lt (Nat.sub_lt hpos Nat.one_pos)]
    · rename_i h0
      obtain ⟨j, hj⟩ := Nat.exists_eq_succ_of_ne_zero h0
      congr 1
      rw [hj]
      have h1 : j + 1 + (s.topics.length - 1) = j + s.topics.length := by omega
      rw [h1, Nat.add_mod_right, Nat.mod_eq_of_lt (by omega)]
      omega

theorem next_iterate (k : Nat) (s : AppState) (hi : s.selected_index < s.topics.length) :
    AppState.next^[k] s =
      { s with selected_index := (s.selected_index + k) % s.topics.length } := by
  induction k generalizing s with
  | zero =>
    cases s with
    | mk topics sel =>
      simp only [Function.iterate_zero, id_eq, Nat.add_zero]
      rw [Nat.mod_eq_of_lt hi]
  | succ k ih =>
    have hne : s.topics ≠ [] := by
      intro hc; rw [hc] at hi; exact Nat.not_lt_zero _ hi
    have hpos : 0 < s.topics.length := List.length_pos_of_ne_nil hne
    rw [Function.iterate_succ_apply, next_of_pos s hne]
    rw [ih _ (Nat.mod_lt _ hpos)]
    simp only
    congr 1
    rw [Nat.mod_add_mod]
    congr 1
    omega

theorem previous_iterate (k : Nat) (s : AppState)
    (hi : s.selected_index < s.topics.length) :
    AppState.previous^[k] s =
      { s with selected_index :=
          (s.selected_index + k * (s.topics.length - 1)) % s.topics.length } := by
  induction k generalizing s with
  | zero =>
    cases s with
    | mk topics sel =>
      simp only [Function.iterate_zero, id_eq, Nat.zero_mul, Nat.add_zero]
      rw [Nat.mod_eq_of_lt hi]
  | succ k ih =>
    have hne : s.topics ≠ [] := by
      intro hc; rw [hc] at hi; exact Nat.not_lt_zero _ hi
    have hpos : 0 < s.topics.length := List.length_pos_of_ne_nil hne
    rw [Function.iterate_succ_apply, previous_of_pos s hne hi]
    rw [ih _ (Nat.mod_lt _ hpos)]
    simp only
    congr 1
    rw [Nat.mod_add_mod]
    congr 1
    ring

/-- C3: on every store satisfying the selection invariant, `next` applied
`topics.length` times is the identity, and so is `previous` applied
`topics.length` times; `previous` from index `0` wraps to the last index, and
both operations are no-ops on an empty store. -/
theorem C3_cyclic_navigation (s : AppState) (h : storeInv s) :
    AppState.next^[s.topics.length] s = s ∧
    AppState.previous^[s.topics.length] s = s ∧
    (s.topics ≠ [] → s.selected_index = 0 →
      (AppState.previous s).selected_index = s.topics.length - 1) ∧
    (s.topics = [] → AppState.next s = s ∧ AppState.previous s = s) := by
  by_cases hnil : s.topics = []
  · have hlen : s.topics.length = 0 := by rw [hnil]; rfl
    refine ⟨?_, ?_, fun hc _ => absurd hnil hc, fun _ => ?_⟩
    · rw [hlen]; rfl
    · rw [hlen]; rfl
    · have he : s.topics.isEmpty = true := by rw [hnil]; rfl
      constructor
      · unfold AppState.next; rw [he]; rfl
      · unfold AppState.previous; rw [he]; rfl
  · have hi : s.selected_index < s.topics.length := h.2 hnil
    have hpos : 0 < s.topics.length := List.length_pos_of_ne_nil hnil
    refine ⟨?_, ?_, ?_, fun hc => absurd hc hnil⟩
    · rw [next_iterate _ s hi]
      cases s with
      | mk topics sel =>
        simp only at hi ⊢
        rw [Nat.add_mod_right, Nat.mod_eq_of_lt hi]
    · rw [previous_iterate _ s hi]
      cases s with
      | mk topics sel =>
        simp only at hi ⊢
        rw [Nat.add_mul_mod_self_left, Nat.mod_eq_of_lt hi]
    · intro _ h0
      rw [previous_of_pos s hnil hi, h0]
      simp only
      rw [Nat.zero_add, Nat.mod_eq_of_lt (Nat.sub_lt hpos Nat.one_pos)]

/-- Witness for C3 at a concrete two-topic store with cursor `1`. -/
theorem C3_cyclic_navigation_witness :
    AppState.next^[2] ⟨[⟨"a", []⟩, ⟨"b", []⟩], 1⟩ = ⟨[⟨"a", []⟩, ⟨"b", []⟩], 1⟩ ∧
    AppState.previous^[2] ⟨[⟨"a", []⟩, ⟨"b", []⟩], 1⟩ = ⟨[⟨"a", []⟩, ⟨"b", []⟩], 1⟩ :=
  ⟨(C3_cyclic_navigation ⟨[⟨"a", []⟩, ⟨"b", []⟩], 1⟩ (by decide)).1,
   (C3_cyclic_navigation ⟨[⟨"a", []⟩, ⟨"b", []⟩], 1⟩ (by decide)).2.1⟩

-- Frame properties of a single upsert.

theorem push_getElem_of_name_ne (ts : List TopicActivity) (n : String)
    (m : MessageActivity) :
    ∀ i, (hi : i < ts.length) → (ts[i]).name ≠ n →
      (push_message_into_topic ts n m)[i]? = some ts[i] := by
  induction ts with
  | nil => intro i hi; exact absurd hi (Nat.not_lt_zero i)
  | cons t ts ih =>
    intro i hi hne
    cases i with
    | zero =>
      simp only [List.getElem_cons_zero] at hne
      rw [push_message_into_topic, if_neg hne]
      simp
    | succ j =>
      have hj : j < ts.length := Nat.lt_of_succ_lt_succ hi
      simp only [List.getElem_cons_succ] at hne ⊢
      by_cases h : t.name = n
      · rw [push_message_into_topic, if_pos h]
        simp [List.getElem?_eq_getElem hj]
      · rw [push_message_into_topic, if_neg h]
        simp only [List.getElem?_cons_succ]
        exact ih j hj hne

theorem push_getElem_ne_findIdx (ts : List TopicActivity) (n : String)
    (m : MessageActivity) :
    ∀ i, i < ts.length → i ≠ ts.findIdx (fun t => t.name == n) →
      (push_message_into_topic ts n m)[i]? = ts[i]? := by
  induction ts with
  | nil => intro i hi; exact absurd hi (Nat.not_lt_zero i)
  | cons t ts ih =>
    intro i hi hne
    by_cases h : t.name = n
    · have hb : (t.name == n) = true := beq_iff_eq.mpr h
      have hfi : (t :: ts).findIdx (fun t => t.name == n) = 0 := by
        simp [List.findIdx_cons, hb]
      rw [hfi] at hne
      obtain ⟨j, hj⟩ := Nat.exists_eq_succ_of_ne_zero hne
      subst hj
      rw [push_message_into_topic, if_pos h]
      simp
    · have hb : (t.name == n) = false := by simp [h]
      have hfi : (t :: ts).findIdx (fun t => t.name == n) =
          ts.findIdx (fun t => t.name == n) + 1 := by
        simp [List.findIdx_cons, hb]
      rw [hfi] at hne
      rw [push_message_into_topic, if_neg h]
      cases i with
      | zero => simp
      | succ j =>
        have hj : j < ts.length := Nat.lt_of_succ_lt_succ hi
        simp only [List.getElem?_cons_succ]
        exact ih j hj (fun hc => hne (by rw [hc]))

theorem push_getElem_findIdx (ts : List TopicActivity) (n : String)
    (m : MessageActivity) :
    ∀ i, (hi : i < ts.length) → i = ts.findIdx (fun t => t.name == n) →
      (push_message_into_topic ts n m)[i]? =
        some ⟨(ts[i]).name, (ts[i]).messages ++ [m]⟩ := by
  induction ts with
  | nil => intro i hi; exact absurd hi (Nat.not_lt_zero i)
  | cons t ts ih =>
    intro i hi heq
    by_cases h : t.name = n
    · have hb : (t.name == n) = true := beq_iff_eq.mpr h
      have hfi : (t :: ts).findIdx (fun t => t.name == n) = 0 := by
        simp [List.findIdx_cons, hb]
      rw [hfi] at heq
      subst heq
      rw [push_message_into_topic, if_pos h]
      simp
    · have hb : (t.name == n) = false := by simp [h]
      have hfi : (t :: ts).findIdx (fun t => t.name == n) =
          ts.findIdx (fun t => t.name == n) + 1 := by
        simp [List.findIdx_cons, hb]
      rw [hfi] at heq
      subst heq
      rw [push_message_into_topic, if_neg h]
      have hj : ts.findIdx (fun t => t.name == n) < ts.length :=
        Nat.lt_of_succ_lt_succ hi
      simp only [List.getElem?_cons_succ, List.getElem_cons_succ]
      exact ih _ hj rfl

/-- C9: a single `upsert` (`push_message_into_topic`) never changes
`selected_index`, never removes or reorders existing topics (the name
sequence is either unchanged or extended by one at the end), leaves every
topic at a position other than the first name match unchanged in place (in
particular every topic whose name differs from the event's topic), and the
first matched topic only has the message appended to its log. -/
theorem C9_upsert_frame (s : AppState) (n : String) (m : MessageActivity) :
    (s.upsert n m).selected_index = s.selected_index ∧
    ((s.upsert n m).topics.map TopicActivity.name =
      if n ∈ s.topics.map TopicActivity.name then s.topics.map TopicActivity.name
      else s.topics.map TopicActivity.name ++ [n]) ∧
    (∀ i, (hi : i < s.topics.length) → (s.topics[i]).name ≠ n →
      (s.upsert n m).topics[i]? = some s.topics[i]) ∧
    (∀ i, i < s.topics.length → i ≠ s.topics.findIdx (fun t => t.name == n) →
      (s.upsert n m).topics[i]? = s.topics[i]?) ∧
    (∀ i, (hi : i < s.topics.length) → i = s.topics.findIdx (fun t => t.name == n) →
      (s.upsert n m).topics[i]? =
        some ⟨(s.topics[i]).name, (s.topics[i]).messages ++ [m]⟩) :=
  ⟨rfl, push_map_name s.topics n m,
   push_getElem_of_name_ne s.topics n m,
   push_getElem_ne_findIdx s.topics n m,
   push_getElem_findIdx s.topics n m⟩

/-- Witness for C9 on a concrete two-topic store: pushing to topic `b`
leaves the cursor and topic `a` untouched and appends to `b`. -/
theorem C9_upsert_frame_witness :
    ((AppState.mk [⟨"a", [⟨"1", "t"⟩]⟩, ⟨"b", []⟩] 1).upsert "b" ⟨"2", "u"⟩).selected_index = 1 ∧
    ((AppState.mk [⟨"a", [⟨"1", "t"⟩]⟩, ⟨"b", []⟩] 1).upsert "b" ⟨"2", "u"⟩).topics[0]? =
      some ⟨"a", [⟨"1", "t"⟩]⟩ ∧
    ((AppState.mk [⟨"a", [⟨"1", "t"⟩]⟩, ⟨"b", []⟩] 1).upsert "b" ⟨"2", "u"⟩).topics[1]? =
      some ⟨"b", [⟨"2", "u"⟩]⟩ := by
  refine ⟨(C9_upsert_frame (AppState.mk [⟨"a", [⟨"1", "t"⟩]⟩, ⟨"b", []⟩] 1) "b" ⟨"2", "u"⟩).1, ?_, ?_⟩
  · exact (C9_upsert_frame (AppState.mk [⟨"a", [⟨"1", "t"⟩]⟩, ⟨"b", []⟩] 1) "b"
      ⟨"2", "u"⟩).2.2.1 0 (by decide) (by decide)
  · have h := (C9_upsert_frame (AppState.mk [⟨"a", [⟨"1", "t"⟩]⟩, ⟨"b", []⟩] 1) "b"
      ⟨"2", "u"⟩).2.2.2.2 1 (by decide) (by decide)
    simpa using h

-- ===========================================================================
-- Event Producer (`src/mqtt.rs`: `handle_incoming_messages`)
-- ===========================================================================

/-- Rust `char::REPLACEMENT_CHARACTER`, `U+FFFD`. -/
def replacementChar : Char := Char.ofNat 0xFFFD

/-- Whether a byte is a UTF-8 continuation byte (`0x80..=0xBF`). -/
def isContByte (b : Nat) : Bool := 0x80 ≤ b && b ≤ 0xBF

/-- One step of UTF-8 decoding, mirroring Rust's `core::str` validation used
by `String::from_utf8_lossy`: given the first byte and the remaining bytes it
returns the decoded scalar and the rest of the input on a well-formed
sequence, or `none` together with the input to resume from after one
replacement (Rust's substitution of maximal subparts: on an invalid or
truncated sequence, decoding resumes right after the longest valid prefix of
the sequence, and at least one byte is always consumed). -/
def utf8Step (b : Nat) (bs : List Nat) : Option Char × List Nat :=
  if b ≤ 0x7F then
    (some (Char.ofNat b), bs)
  else if 0xC2 ≤ b && b ≤ 0xDF then
    match bs with
    | [] => (none, [])
    | b2 :: bs2 =>
      if isContByte b2 then
        (some (Char.ofNat ((b % 32) * 64 + b2 % 64)), bs2)
      else (none, b2 :: bs2)
  else if 0xE0 ≤ b && b ≤ 0xEF then
    match bs with
    | [] => (none, [])
    | b2 :: bs2 =>
      if (if b = 0xE0 then decide (0xA0 ≤ b2 ∧ b2 ≤ 0xBF)
          else if b = 0xED then decide (0x80 ≤ b2 ∧ b2 ≤ 0x9F)
          else isContByte b2) then
        match bs2 with
        | [] => (none, [])
        | b3 :: bs3 =>
          if isContByte b3 then
            (some (Char.ofNat ((b % 16) * 4096 + (b2 % 64) * 64 + b3 % 64)), bs3)
          else (none, b3 :: bs3)
      else (none, b2 :: bs2)
  else if 0xF0 ≤ b && b ≤ 0xF4 then
    match bs with
    | [] => (none, [])
    | b2 :: bs2 =>
      if (if b = 0xF0 then decide (0x90 ≤ b2 ∧ b2 ≤ 0xBF)
          else if b = 0xF4 then decide (0x80 ≤ b2 ∧ b2 ≤ 0x8F)
          else isContByte b2) then
        match bs2 with
        | [] => (none, [])
        | b3 :: bs3 =>
          if isContByte b3 then
            match bs3 with
            | [] => (none, [])
            | b4 :: bs4 =>
              if isContByte b4 then
                (some (Char.ofNat ((b % 8) * 262144 + (b2 % 64) * 4096 +
                  (b3 % 64) * 64 + b4 % 64)), bs4)
              else (none, b4 :: bs4)
          else (none, b3 :: bs3)
      else (none, b2 :: bs2)
  else (none, bs)

theorem utf8Step_rest_length (b : Nat) (bs : List Nat) :
    (utf8Step b bs).2.length ≤ bs.length := by
  unfold utf8Step
  repeat' split
  all_goals simp
  all_goals omega

theorem utf8Step_rest_lt (b : Nat) (bs rest : List Nat) (o : Option Char)
    (h : utf8Step b bs = (o, rest)) : rest.length < (b :: bs).length := by
  have hle := utf8Step_rest_length b bs
  rw [h] at hle
  simp only [List.length_cons]
  exact Nat.lt_succ_of_le hle

/-- Fuel-driven decoding loop behind `from_utf8_lossy`; the fuel only serves
structural recursion and is irrelevant as soon as it bounds the input length
(each step consumes at least one byte). -/
def utf8LossyFuel : Nat → List Nat → List Char
  | _, [] => []
  | 0, _ :: _ => []
  | fuel + 1, b :: bs =>
    match utf8Step b bs with
    | (some c, rest) => c :: utf8LossyFuel fuel rest
    | (none, rest) => replacementChar :: utf8LossyFuel fuel rest

/-- Rust `String::from_utf8_lossy` on a byte sequence, as the decoded
character list: well-formed sequences decode to their scalar values and each
maximal invalid subpart is replaced by `U+FFFD`. -/
def from_utf8_lossy (l : List Nat) : List Char :=
  utf8LossyFuel l.length l

/-- Fuel-driven validation loop behind `validUtf8`. -/
def validUtf8Fuel : Nat → List Nat → Bool
  | _, [] => true
  | 0, _ :: _ => false
  | fuel + 1, b :: bs =>
    match utf8Step b bs with
    | (some _, rest) => validUtf8Fuel fuel rest
    | (none, _) => false

/-- Strict UTF-8 validity (Rust `str::from_utf8` succeeding): every step of
the decoder succeeds until the input is exhausted. -/
def validUtf8 (l : List Nat) : Bool :=
  validUtf8Fuel l.length l

theorem utf8LossyFuel_fuel_irrel (f1 : Nat) :
    ∀ (f2 : Nat) (l : List Nat), l.length ≤ f1 → l.length ≤ f2 →
      utf8LossyFuel f1 l = utf8LossyFuel f2 l := by
  induction f1 with
  | zero =>
    intro f2 l h1 _
    have : l = [] := List.length_eq_zero.mp (Nat.le_zero.mp h1)
    subst this
    cases f2 <;> rfl
  | succ f ih =>
    intro f2 l h1 h2
    cases l with
    | nil => cases f2 <;> rfl
    | cons b bs =>
      cases f2 with
      | zero => exact absurd h2 (by simp)
      | succ g =>
        have hlen : bs.length ≤ f := by simpa using h1
        have hlen2 : bs.length ≤ g := by simpa using h2
        simp only [utf8LossyFuel]
        cases hstep : utf8Step b bs with
        | mk o rest =>
          have hrest : rest.length ≤ bs.length := by
            have := utf8Step_rest_length b bs
            rw [hstep] at this
            exact this
          cases o <;> simp only <;>
            rw [ih g rest (le_trans hrest hlen) (le_trans hrest hlen2)]

theorem validUtf8Fuel_fuel_irrel (f1 : Nat) :
    ∀ (f2 : Nat) (l : List Nat), l.length ≤ f1 → l.length ≤ f2 →
      validUtf8Fuel f1 l = validUtf8Fuel f2 l := by
  induction f1 with
  | zero =>
    intro f2 l h1 _
    have : l = [] := List.length_eq_zero.mp (Nat.le_zero.mp h1)
    subst this
    cases f2 <;> rfl
  | succ f ih =>
    intro f2 l h1 h2
    cases l with
    | nil => cases f2 <;> rfl
    | cons b bs =>
      cases f2 with
      | zero => exact absurd h2 (by simp)
      | succ g =>
        have hlen : bs.length ≤ f := by simpa using h1
        have hlen2 : bs.length ≤ g := by simpa using h2
        simp only [validUtf8Fuel]
        cases hstep : utf8Step b bs with
        | mk o rest =>
          have hrest : rest.length ≤ bs.length := by
            have := utf8Step_rest_length b bs
            rw [hstep] at this
            exact this
          cases o with
          | none => simp only
          | some c =>
            simp only
            rw [ih g rest (le_trans hrest hlen) (le_trans hrest hlen2)]

theorem from_utf8_lossy_cons (b : Nat) (bs : List Nat) :
    from_utf8_lossy (b :: bs) =
      match utf8Step b bs with
      | (some c, rest) => c :: from_utf8_lossy rest
      | (none, rest) => replacementChar :: from_utf8_lossy rest := by
  show utf8LossyFuel (bs.length + 1) (b :: bs) = _
  simp only [utf8LossyFuel]
  cases hstep : utf8Step b bs with
  | mk o rest =>
    have hrest : rest.length ≤ bs.length := by
      have := utf8Step_rest_length b bs
      rw [hstep] at this
      exact this
    cases o <;> simp only <;>
      rw [utf8LossyFuel_fuel_irrel bs.length rest.length rest hrest (Nat.le_refl _)] <;> rfl

theorem validUtf8_cons (b : Nat) (bs : List Nat) :
    validUtf8 (b :: bs) =
      match utf8Step b bs with
      | (some _, rest) => validUtf8 rest
      | (none, _) => false := by
  show validUtf8Fuel (bs.length + 1) (b :: bs) = _
  simp only [validUtf8Fuel]
  cases hstep : utf8Step b bs with
  | mk o rest =>
    have hrest : rest.length ≤ bs.length := by
      have := utf8Step_rest_length b bs
      rw [hstep] at this
      exact this
    cases o with
    | none => simp only
    | some c =>
      simp only
      rw [validUtf8Fuel_fuel_irrel bs.length rest.length rest hrest (Nat.le_refl _)]
      rfl

/-- Every byte sequence that is not valid UTF-8 decodes with at least one
replacement character in the output. -/
theorem invalid_utf8_has_replacement :
    ∀ (n : Nat) (l : List Nat), l.length ≤ n → validUtf8 l = false →
      replacementChar ∈ from_utf8_lossy l := by
  intro n
  induction n with
  | zero =>
    intro l h1 hv
    have : l = [] := List.length_eq_zero.mp (Nat.le_zero.mp h1)
    subst this
    exact absurd hv (by simp [validUtf8, validUtf8Fuel])
  | succ n ih =>
    intro l h1 hv
    cases l with
    | nil => exact absurd hv (by simp [validUtf8, validUtf8Fuel])
    | cons b bs =>
      rw [validUtf8_cons] at hv
      rw [from_utf8_lossy_cons]
      cases hstep : utf8Step b bs with
      | mk o rest =>
        have hrest : rest.length ≤ bs.length := by
          have := utf8Step_rest_length b bs
          rw [hstep] at this
          exact this
        have hlen : bs.length ≤ n := by simpa using h1
        cases o with
        | some c =>
          simp only [hstep] at hv ⊢
          exact List.mem_cons_of_mem c (ih rest (le_trans hrest hlen) hv)
        | none =>
          simp only [hstep]
          exact List.mem_cons_self _ _

/-- An `OffsetDateTime` of the `time` crate: a UTC instant paired with the
offset it is expressed in. -/
structure OffsetDateTime where
  instant : Int
  offset : Int
deriving DecidableEq, Repr

/-- The timestamp construction of `handle_incoming_messages`
(`src/mqtt.rs` lines 84-86):
`OffsetDateTime::now_local().unwrap_or(OffsetDateTime::now_utc().to_offset(UtcOffset::current_local_offset().unwrap()))`.
In the `time` crate, `now_local()` and `current_local_offset()` succeed under
the same condition, namely that the local UTC offset can soundly be
determined; that condition is the `local_offset` parameter being `some`, and
on success both describe the current instant at the local offset. Rust
evaluates the argument of `unwrap_or` eagerly, so the `.unwrap()` on the
result of `current_local_offset()` runs on every call and panics (modelled
as `none`) whenever local-offset resolution fails. -/
def event_timestamp (utc_now : Int) (local_offset : Option Int) : Option OffsetDateTime :=
  match local_offset with
  | some off => some ⟨utc_now, off⟩
  | none => none

/-- The rumqttc packets the loop distinguishes: `Packet::Publish` carries a
topic and payload bytes; every other incoming packet (connection acks,
ping responses, suback, ...) is collapsed into `other`, which the loop
ignores uniformly. -/
inductive Packet where
  | publish (topic : String) (payload : List Nat)
  | other
deriving DecidableEq, Repr

/-- A rumqttc connection notification: `Event::Incoming(packet)` or
`Event::Outgoing(..)`. -/
inductive Notification where
  | incoming (p : Packet)
  | outgoing
deriving DecidableEq, Repr

/-- `MQTTEvent` from `src/mqtt.rs`: topic, lossily decoded payload text, and
the construction timestamp. -/
structure MQTTEvent where
  topic : String
  payload : String
  timestamp : OffsetDateTime
deriving DecidableEq, Repr

def is_publish : Notification → Bool
  | .incoming (.publish _ _) => true
  | _ => false

/-- `handle_incoming_messages` (`src/mqtt.rs` lines 78-98). The `stream`
argument is the sequence of notifications that `event_loop.poll()` delivers
before it first returns `Err` (at which point the `while let` loop exits and
the task ends); the accumulator is the log of events sent into the channel.
For each `Event::Incoming(Packet::Publish(..))` the payload is decoded with
`String::from_utf8_lossy` and a timestamp is constructed; `none` models the
panic of the timestamp construction when local-offset resolution fails.
All other notifications fall through without effect. -/
def handle_incoming_messages (utc_now : Int) (local_offset : Option Int) :
    List Notification → List MQTTEvent → Option (List MQTTEvent)
  | [], acc => some acc
  | n :: rest, acc =>
    match n with
    | .incoming (.publish topic payload) =>
      match event_timestamp utc_now local_offset with
      | none => none
      | some ts =>
        handle_incoming_messages utc_now local_offset rest
          (acc ++ [⟨topic, String.mk (from_utf8_lossy payload), ts⟩])
    | _ => handle_incoming_messages utc_now local_offset rest acc

/-- The declarative counterpart of one loop iteration: the event a
notification contributes to the queue, if any. -/
def publish_event (utc_now : Int) (off : Int) : Notification → Option MQTTEvent
  | .incoming (.publish t p) => some ⟨t, String.mk (from_utf8_lossy p), ⟨utc_now, off⟩⟩
  | _ => none

theorem handle_incoming_messages_spec (utc_now off : Int) (stream : List Notification) :
    ∀ acc, handle_incoming_messages utc_now (some off) stream acc =
      some (acc ++ stream.filterMap (publish_event utc_now off)) := by
  induction stream with
  | nil => intro acc; simp [handle_incoming_messages]
  | cons n rest ih =>
    intro acc
    cases n with
    | incoming p =>
      cases p with
      | publish t pl =>
        simp only [handle_incoming_messages, event_timestamp, publish_event,
          List.filterMap_cons, ih]
        simp
      | other =>
        simp only [handle_incoming_messages, publish_event, List.filterMap_cons, ih]
    | outgoing =>
      simp only [handle_incoming_messages, publish_event, List.filterMap_cons, ih]

theorem length_filterMap_publish (utc_now off : Int) (stream : List Notification) :
    (stream.filterMap (publish_event utc_now off)).length = stream.countP is_publish := by
  induction stream with
  | nil => rfl
  | cons n rest ih =>
    cases n with
    | incoming p =>
      cases p with
      | publish t pl => simp [publish_event, is_publish, List.countP_cons, ih]
      | other => simp [publish_event, is_publish, List.countP_cons, ih]
    | outgoing => simp [publish_event, is_publish, List.countP_cons, ih]

/-- C4: provided the timestamp construction does not panic (local offset
resolved, see C5), the Event Producer loop sends onto the queue exactly the
publish notifications of the polled stream, in arrival order, decoded
lossily and timestamped; acks, pings and all other notifications produce no
event, and the loop returns (terminates) when the notification stream
ends. -/
theorem C4_producer_sends_exactly_publishes (utc_now off : Int)
    (stream : List Notification) :
    handle_incoming_messages utc_now (some off) stream [] =
      some (stream.filterMap (publish_event utc_now off)) := by
  simpa using handle_incoming_messages_spec utc_now off stream []

/-- C5: the timestamp construction is total on the success path, but on
local-offset resolution failure the `unwrap()` inside the eagerly evaluated
`unwrap_or` fallback panics instead of falling back, aborting event
construction. -/
theorem C5_timestamp_panics_when_offset_unresolved :
    (∀ u off, event_timestamp u (some off) = some ⟨u, off⟩) ∧
    (∀ u, event_timestamp u none = none) :=
  ⟨fun _ _ => rfl, fun _ => rfl⟩

/-- C10: payload decoding is total and lossy. On the non-panicking path the
loop drops no publish, whatever bytes each payload carries (the queue gains
exactly one event per publish notification), and any payload that is not
valid UTF-8 is decoded with the Unicode replacement character substituted
into the produced string. -/
theorem C10_payload_decoding_total_and_lossy (utc_now off : Int)
    (stream : List Notification) (bs : List Nat)
    (h : validUtf8 bs = false) :
    (∃ out, handle_incoming_messages utc_now (some off) stream [] = some out ∧
      out.length = stream.countP is_publish) ∧
    replacementChar ∈ from_utf8_lossy bs := by
  constructor
  · exact ⟨stream.filterMap (publish_event utc_now off),
      by simpa using handle_incoming_messages_spec utc_now off stream [],
      length_filterMap_publish utc_now off stream⟩
  · exact invalid_utf8_has_replacement bs.length bs (Nat.le_refl _) h

-- ===========================================================================
-- Configuration form (`src/app.rs`: `ConfigFormState`;
-- `src/tui/config_form.rs`: `ConfigFormScreen`)
-- ===========================================================================

/-- `FocusField` from `src/app.rs`. -/
inductive FocusField where
  | Host
  | Port
deriving DecidableEq, Repr

/-- `ConfigFormState`. The fields `host`, `port`, `focus`, `error` are the
declaration in `src/app.rs`; the fields `connecting` and `spinner_idx` are
the two further fields this snapshot's `src/tui/config_form.rs` reads and
writes on the same struct (`self.state.connecting`, `self.state.spinner_idx`),
so they are included here with the initial values the code resets them to. -/
structure ConfigFormState where
  host : String
  port : String
  focus : FocusField
  error : Option String
  connecting : Bool
  spinner_idx : Nat
deriving DecidableEq, Repr

/-- `ConfigFormState::new` from `src/app.rs`. -/
def ConfigFormState.new : ConfigFormState :=
  { host := "", port := "", focus := .Host, error := none,
    connecting := false, spinner_idx := 0 }

/-- `ConfigFormState::insert_char` from `src/app.rs`: push a character onto
the focused field. -/
def ConfigFormState.insert_char (s : ConfigFormState) (c : Char) : ConfigFormState :=
  match s.focus with
  | .Host => { s with host := s.host.push c }
  | .Port => { s with port := s.port.push c }

/-- `ConfigFormState::delete_char` from `src/app.rs`: pop the last character
of the focused field. -/
def ConfigFormState.delete_char (s : ConfigFormState) : ConfigFormState :=
  match s.focus with
  | .Host => { s with host := s.host.dropRight 1 }
  | .Port => { s with port := s.port.dropRight 1 }

/-- `ConfigFormState::next_field` from `src/app.rs`. -/
def ConfigFormState.next_field (s : ConfigFormState) : ConfigFormState :=
  match s.focus with
  | .Host => { s with focus := .Port }
  | .Port => { s with focus := .Host }

/-- Rust `str::parse::<u16>`: an optional leading `+`, then at least one
ASCII digit, value within `0..=65535`; anything else (empty string, a minus
sign, non-digits, overflow) is an error. -/
def parse_u16 (s : String) : Option Nat :=
  let ds := match s.data with
    | '+' :: rest => rest
    | cs => cs
  if ds.isEmpty then none
  else if ds.all (fun c => c.isDigit) then
    let v := ds.foldl (fun a c => a * 10 + (c.toNat - 48)) 0
    if v ≤ 65535 then some v else none
  else none

/-- `MQTTConfig` from `src/mqtt.rs` (the `u16` port as a `Nat`; `parse_u16`
enforces the range). -/
structure MQTTConfig where
  host : String
  port : Nat
deriving DecidableEq, Repr

/-- The state of `ConfigFormScreen` from `src/tui/config_form.rs` that the
transition functions touch: the form state, the completed result, and
whether a probe receiver is pending (`pending_conn.is_some()`). The terminal
handle and the spinner clock are rendering-only and omitted. -/
structure ConfigFormScreen where
  state : ConfigFormState
  result : Option MQTTConfig
  pending_conn : Bool
deriving DecidableEq, Repr

/-- `ConfigFormScreen::new`. -/
def ConfigFormScreen.new : ConfigFormScreen :=
  { state := ConfigFormState.new, result := none, pending_conn := false }

def ConfigFormScreen.insert_char (scr : ConfigFormScreen) (c : Char) : ConfigFormScreen :=
  { scr with state := scr.state.insert_char c }

def ConfigFormScreen.delete_char (scr : ConfigFormScreen) : ConfigFormScreen :=
  { scr with state := scr.state.delete_char }

def ConfigFormScreen.next_field (scr : ConfigFormScreen) : ConfigFormScreen :=
  { scr with state := scr.state.next_field }

/-- What `rx.try_recv()` on the probe's channel can deliver. -/
inductive TryRecvResult where
  | ok_ok
  | ok_err (msg : String)
  | empty
  | disconnected
deriving DecidableEq, Repr

/-- `ConfigFormScreen::process_pending_conn` (`src/tui/config_form.rs` lines
63-92): nothing happens without a pending receiver; a successful probe
result re-parses the form's current `port` field and completes with the
current `host` on success of that parse, or sets the port error otherwise; a
failed probe (or a disconnected channel) sets an error, clears `connecting`,
resets the spinner and discards the receiver; an empty channel changes
nothing. -/
def process_pending_conn (scr : ConfigFormScreen) (r : TryRecvResult) : ConfigFormScreen :=
  if scr.pending_conn then
    match r with
    | .ok_ok =>
      match parse_u16 scr.state.port with
      | some p => { scr with result := some { host := scr.state.host, port := p } }
      | none =>
        { scr with state := { scr.state with error := some "Port must be a valid number" } }
    | .ok_err _ =>
      { scr with
        state := { scr.state with
          error := some ("Host unreachable: " ++ scr.state.host),
          connecting := false, spinner_idx := 0 },
        pending_conn := false }
    | .empty => scr
    | .disconnected =>
      { scr with
        state := { scr.state with
          error := some "Connection check failed (disconnected)",
          connecting := false, spinner_idx := 0 },
        pending_conn := false }
  else scr

/-- `ConfigFormScreen::on_enter_pressed` (`src/tui/config_form.rs` lines
95-110) together with the `pending_conn` effect of
`spawn_validation_thread`: if the current port parses, a pending probe makes
the press return early, and otherwise the error is cleared, `connecting`
set, the spinner reset and a probe spawned with the current host and the
parsed port (the second component of the result); if the port does not
parse, only the error message is set and no probe is spawned. -/
def on_enter_pressed (scr : ConfigFormScreen) : ConfigFormScreen × Option (String × Nat) :=
  match parse_u16 scr.state.port with
  | some p =>
    if scr.state.connecting then (scr, none)
    else
      ({ scr with
          state := { scr.state with error := none, connecting := true, spinner_idx := 0 },
          pending_conn := true },
        some (scr.state.host, p))
  | none =>
    ({ scr with state := { scr.state with error := some "Port must be a valid number" } },
      none)

-- Concrete interaction pipeline for C6: type host "h" and port "1883",
-- press Enter (spawning the probe with the validated values), then edit the
-- port field to "abc" while the probe is outstanding, then receive success.

def c6_filled : ConfigFormScreen :=
  ConfigFormScreen.new.insert_char 'h' |>.next_field |>.insert_char '1'
    |>.insert_char '8' |>.insert_char '8' |>.insert_char '3'

def c6_probing : ConfigFormScreen × Option (String × Nat) :=
  on_enter_pressed c6_filled

def c6_edited : ConfigFormScreen :=
  c6_probing.1.delete_char |>.delete_char |>.delete_char |>.delete_char
    |>.insert_char 'a' |>.insert_char 'b' |>.insert_char 'c'

def c6_received : ConfigFormScreen :=
  process_pending_conn c6_edited .ok_ok

/-- C6 counterexample: the probe was spawned with the validated config
`("h", 1883)`, but after the port field is edited while the probe is
outstanding, receiving the success result does not complete the form with
that validated config — the code re-parses the current field contents,
fails, and sets the port error instead of completing. -/
theorem C6_counterexample_success_ignores_validated_config :
    c6_probing.2 = some ("h", 1883) ∧
    c6_received.result = none ∧
    c6_received.state.error = some "Port must be a valid number" := by decide

/-- C6 (amended): when a probe result is received with a receiver pending:
on success the form completes from the fields' contents at receive time — if
the current port parses, `result` becomes the current host with that parsed
port; if it no longer parses, the port error is set and the form does not
complete; on failure the form returns to the editable state with the error
set, `connecting` cleared, the spinner reset, the probe discarded, and no
completion. -/
theorem C6_amended_process_pending_conn (scr : ConfigFormScreen)
    (hp : scr.pending_conn = true) :
    (∀ p, parse_u16 scr.state.port = some p →
      process_pending_conn scr .ok_ok =
        { scr with result := some { host := scr.state.host, port := p } }) ∧
    (parse_u16 scr.state.port = none →
      process_pending_conn scr .ok_ok =
        { scr with state := { scr.state with error := some "Port must be a valid number" } }) ∧
    (∀ msg, process_pending_conn scr (.ok_err msg) =
      { scr with
        state := { scr.state with
          error := some ("Host unreachable: " ++ scr.state.host),
          connecting := false, spinner_idx := 0 },
        pending_conn := false } ∧
      (process_pending_conn scr (.ok_err msg)).result = scr.result) := by
  refine ⟨?_, ?_, ?_⟩
  · intro p hpp
    unfold process_pending_conn
    rw [if_pos hp]
    simp only [hpp]
  · intro hpp
    unfold process_pending_conn
    rw [if_pos hp]
    simp only [hpp]
  · intro msg
    constructor
    · unfold process_pending_conn
      rw [if_pos hp]
    · unfold process_pending_conn
      rw [if_pos hp]

/-- Witness for C6 (amended) at a concrete pending screen. -/
theorem C6_amended_process_pending_conn_witness :
    process_pending_conn
      { state := { host := "h", port := "1883", focus := .Port, error := none,
                   connecting := true, spinner_idx := 0 },
        result := none, pending_conn := true } .ok_ok =
      { state := { host := "h", port := "1883", focus := .Port, error := none,
                   connecting := true, spinner_idx := 0 },
        result := some { host := "h", port := 1883 }, pending_conn := true } := by
  exact (C6_amended_process_pending_conn
    { state := { host := "h", port := "1883", focus := .Port, error := none,
                 connecting := true, spinner_idx := 0 },
      result := none, pending_conn := true } rfl).1 1883 (by decide)

-- Concrete interaction pipeline for C7: same as C6 up to the edit, then a
-- second Enter press while the probe is outstanding.

def c7_probing : ConfigFormScreen × Option (String × Nat) :=
  on_enter_pressed (ConfigFormScreen.new.insert_char 'h' |>.next_field
    |>.insert_char '1' |>.insert_char '8' |>.insert_char '8' |>.insert_char '3')

def c7_edited : ConfigFormScreen :=
  c7_probing.1.delete_char |>.delete_char |>.delete_char |>.delete_char
    |>.insert_char 'a' |>.insert_char 'b' |>.insert_char 'c'

/-- C7 counterexample: with a probe outstanding (`connecting` true) and the
port field edited to `"abc"`, pressing Enter is not ignored — it sets the
port error, changing the form state (no second probe is spawned, though). -/
theorem C7_counterexample_enter_not_ignored_while_connecting :
    c7_edited.state.connecting = true ∧
    c7_edited.state.error = none ∧
    (on_enter_pressed c7_edited).1.state.error = some "Port must be a valid number" ∧
    (on_enter_pressed c7_edited).1 ≠ c7_edited ∧
    (on_enter_pressed c7_edited).2 = none := by decide

/-- C7 (amended): while a probe is outstanding (`connecting` true), Enter
never spawns a second probe; if the current port field parses, the press is
fully ignored (state unchanged); if it does not parse, the only state change
is the port error message being set. -/
theorem C7_amended_enter_while_connecting (scr : ConfigFormScreen)
    (hc : scr.state.connecting = true) :
    (on_enter_pressed scr).2 = none ∧
    (∀ p, parse_u16 scr.state.port = some p → (on_enter_pressed scr).1 = scr) ∧
    (parse_u16 scr.state.port = none →
      (on_enter_pressed scr).1 =
        { scr with state := { scr.state with error := some "Port must be a valid number" } }) := by
  unfold on_enter_pressed
  cases hpp : parse_u16 scr.state.port with
  | some p =>
    rw [hc]
    exact ⟨rfl, fun _ _ => rfl, fun hcontra => Option.noConfusion hcontra⟩
  | none =>
    exact ⟨rfl, fun p hcontra => Option.noConfusion hcontra, fun _ => rfl⟩

/-- Witness for C7 (amended) at a concrete connecting screen with a parsable
port: the press spawns nothing and changes nothing. -/
theorem C7_amended_enter_while_connecting_witness :
    (on_enter_pressed
      { state := { host := "h", port := "1883", focus := .Port, error := none,
                   connecting := true, spinner_idx := 0 },
        result := none, pending_conn := true }).2 = none ∧
    (on_enter_pressed
      { state := { host := "h", port := "1883", focus := .Port, error := none,
                   connecting := true, spinner_idx := 0 },
        result := none, pending_conn := true }).1 =
      { state := { host := "h", port := "1883", focus := .Port, error := none,
                   connecting := true, spinner_idx := 0 },
        result := none, pending_conn := true } :=
  ⟨(C7_amended_enter_while_connecting _ rfl).1,
   (C7_amended_enter_while_connecting _ rfl).2.1 1883 (by decide)⟩

/-- C8: Enter in the editable configuration state validates the port field
as an unsigned 16-bit integer — `"abc"`, `"-1"`, `"70000"` fail to parse
while `"0"`, `"1883"`, `"65535"` parse — and on an invalid port the press
only sets the error message (the form stays editable, every other field is
unchanged, nothing completes and no probe is spawned). -/
theorem C8_port_validation (scr : ConfigFormScreen)
    (hc : scr.state.connecting = false)
    (hp : parse_u16 scr.state.port = none) :
    parse_u16 "abc" = none ∧ parse_u16 "-1" = none ∧ parse_u16 "70000" = none ∧
    parse_u16 "0" = some 0 ∧ parse_u16 "1883" = some 1883 ∧
    parse_u16 "65535" = some 65535 ∧
    on_enter_pressed scr =
      ({ scr with state := { scr.state with error := some "Port must be a valid number" } },
        none) := by
  refine ⟨by decide, by decide, by decide, by decide, by decide, by decide, ?_⟩
  unfold on_enter_pressed
  rw [hp]

/-- Witness for C8 at a concrete editable screen with port `"abc"`. -/
theorem C8_port_validation_witness :
    on_enter_pressed
      { state := { host := "h", port := "abc", focus := .Port, error := none,
                   connecting := false, spinner_idx := 0 },
        result := none, pending_conn := false } =
      ({ state := { host := "h", port := "abc", focus := .Port,
                    error := some "Port must be a valid number",
                    connecting := false, spinner_idx := 0 },
         result := none, pending_conn := false }, none) :=
  (C8_port_validation
    { state := { host := "h", port := "abc", focus := .Port, error := none,
                 connecting := false, spinner_idx := 0 },
      result := none, pending_conn := false } rfl (by decide)).2.2.2.2.2.2

/-- Witness for C10 at a concrete stream whose publish carries the invalid
byte `0xFF`: one event per publish, and the decoded payload contains the
replacement character. -/
theorem C10_payload_decoding_total_and_lossy_witness :
    validUtf8 [255] = false ∧
    ((∃ out, handle_incoming_messages 0 (some 0)
        [.incoming (.publish "t" [255]), .incoming .other, .outgoing] [] = some out ∧
      out.length = List.countP is_publish
        [.incoming (.publish "t" [255]), .incoming .other, .outgoing]) ∧
    replacementChar ∈ from_utf8_lossy [255]) :=
  ⟨by decide, C10_payload_decoding_total_and_lossy 0 0
      [.incoming (.publish "t" [255]), .incoming .other, .outgoing] [255] (by decide)⟩
